import Mathlib

/-!
Verification of the `UpCastAs` numeric upcast library (src/lib.rs).

The library declares, for the ten Rust primitive numeric types, a trait
`UpCastAs<T>` with ten reflexive impls (`cast_rule!(self k)`) and nine
blanket impls (`cast_rule!(a => b)`: if `U : UpCastAs<a>` then
`U : UpCastAs<b>`, converting with `t as a` first), together with the
generic entry point `cast<V, T : UpCastAs<V>>(v : V) -> T`.

The embedding below models kinds as an enumeration, the blanket-impl table
as the step function `widen`, trait resolution as the inductive relation
`UpCastAs`, and the value-level effect of a resolved `cast` call as a
rational-valued function `cast` that walks the widening chain, applying the
numeric effect of each single `as` cast.  The only non-identity step on
mathematical values is the 64-bit-integer-to-`f32` cast, which Rust `as`
performs by rounding to the nearest binary32 value, ties to even; it is
modelled exactly by `intToF32`.
-/

namespace Numtraits

/-- Numeric kinds: the ten Rust primitive numeric types the library covers
(`u8 u16 u32 u64 i8 i16 i32 i64 f32 f64`). -/
inductive Kind : Type
| u8 | u16 | u32 | u64
| i8 | i16 | i32 | i64
| f32 | f64
deriving DecidableEq, Fintype

/-- Direct non-reflexive widening facts.  `widen s = some t` holds exactly
when the source declares the blanket impl `cast_rule!(t => s)` (lines
103-113 of lib.rs), whose conversion performs the single hardware cast
`s as t`.  Each kind has at most one widening target, `f64` has none. -/
def widen : Kind → Option Kind
| .i8 => some .i16
| .i16 => some .i32
| .i32 => some .i64
| .u8 => some .u16
| .u16 => some .u32
| .u32 => some .u64
| .i64 => some .f32
| .u64 => some .f32
| .f32 => some .f64
| .f64 => none

/-- Trait resolution: `UpCastAs t s` means the Rust type for `t` implements
`UpCastAs<s>`.  `self` mirrors the ten reflexive impls
`cast_rule!(self k)`; `imp` mirrors the blanket impls: when
`widen s = some m` (the impl `cast_rule!(m => s)`), any `t` implementing
`UpCastAs<m>` also implements `UpCastAs<s>`. -/
inductive UpCastAs : Kind → Kind → Prop
| self (k : Kind) : UpCastAs k k
| imp {t s m : Kind} : widen s = some m → UpCastAs t m → UpCastAs t s

/-- Fuel-bounded reachability along `widen`, used to decide `UpCastAs`. -/
def reaches : Nat → Kind → Kind → Bool
| 0, s, t => s == t
| n + 1, s, t =>
  s == t ||
    match widen s with
    | some m => reaches n m t
    | none => false

theorem reaches_five_eq_six : ∀ s t : Kind, reaches 5 s t = reaches 6 s t := by
  decide

theorem upcast_of_reaches : ∀ n s t, reaches n s t = true → UpCastAs t s := by
  intro n
  induction n with
  | zero =>
    intro s t h
    simp only [reaches, beq_iff_eq] at h
    exact h ▸ UpCastAs.self s
  | succ n ih =>
    intro s t h
    simp only [reaches, Bool.or_eq_true, beq_iff_eq] at h
    rcases h with h | h
    · exact h ▸ UpCastAs.self s
    · cases hw : widen s with
      | none => rw [hw] at h; exact absurd h (by simp)
      | some m => rw [hw] at h; exact UpCastAs.imp hw (ih m t h)

theorem reaches_of_upcast {t s : Kind} (h : UpCastAs t s) : reaches 6 s t = true := by
  induction h with
  | self => simp [reaches]
  | @imp s2 m2 hw _ ih =>
    have h5 : reaches 5 m2 t = true := (reaches_five_eq_six m2 t).symm ▸ ih
    rw [reaches, hw]
    show (s2 == t || reaches 5 m2 t) = true
    rw [h5, Bool.or_true]

instance (t s : Kind) : Decidable (UpCastAs t s) :=
  decidable_of_iff (reaches 6 s t = true)
    ⟨upcast_of_reaches 6 s t, reaches_of_upcast⟩

/-- Binade search: the least `e` with `a < 2 ^ (24 + e)`, computed by
halving (fuel 128 far exceeds the 64-bit operands the library feeds in). -/
def expAux : Nat → Nat → Nat
| 0, _ => 0
| f + 1, a => if a < 16777216 then 0 else expAux f (a / 2) + 1

/-- Exponent of the binary32 rounding grid at integer `x`: `0` while `x`
fits the 24-bit significand exactly, else the distance above the binade
base `2 ^ 23`. -/
def f32exp (x : Int) : Nat := expAux 128 x.natAbs

/-- Round an integer to the nearest multiple of `2 ^ e`, ties to even
multiple (IEEE-754 roundTiesToEven restricted to the integers that a
64-bit-integer-to-`f32` cast can produce). -/
def roundToMultiple (x : Int) (e : Nat) : Int :=
  if e = 0 then x
  else
    let p : Int := 2 ^ e
    let q := x.ediv p
    let r := x.emod p
    let half : Int := 2 ^ (e - 1)
    if r < half then q * p
    else if half < r then (q + 1) * p
    else if q % 2 = 0 then q * p else (q + 1) * p

/-- Numeric value of `x as f32` for a 64-bit integer `x`: the nearest
binary32 value, ties to even — the rounding Rust `as` performs on
integer-to-float casts.  All 64-bit operands land in the finite binary32
range, so no overflow case arises. -/
def intToF32 (x : Int) : Int := roundToMultiple x (f32exp x)

/-- Lift of `intToF32` to the rational value domain.  The library only ever
applies this step to values of kind `i64`/`u64`, which are integers
(denominator 1); the other branch is never reached on representable
operands. -/
def ratToF32 (v : ℚ) : ℚ := if v.den = 1 then ((intToF32 v.num : Int) : ℚ) else v

/-- Numeric effect of the single `as` cast of one direct widening fact on
the mathematical value of the operand (`fn from(t: $b) -> U { U::from(t as $a) }`).
Widening integer casts and `f32 as f64` preserve the value of every
representable operand exactly; the two 64-bit-integer-to-`f32` facts round
to the nearest binary32 value. -/
def stepCast : Kind → Kind → ℚ → ℚ
| .i64, .f32, v => ratToF32 v
| .u64, .f32, v => ratToF32 v
| _, _, v => v

/-- Value-level unfolding of a resolved `cast::<S, T>` call: starting from
kind `s`, the reflexive impl applies when `s = t` (identity, `fn from(t: $a) -> $a { t }`);
otherwise the one blanket impl whose parameter is `s` applies, performing
the single direct cast into `s`'s unique widening target and recursing
from there.  Fuel 6 exceeds the longest chain in the library
(`u8` to `f64`, five steps), so it never runs out on a resolvable pair. -/
def castSteps : Nat → Kind → Kind → ℚ → ℚ
| 0, _, _, v => v
| n + 1, s, t, v =>
  if s = t then v
  else
    match widen s with
    | none => v
    | some m => castSteps n m t (stepCast s m v)

/-- Numeric value computed by `cast::<S, T>(v)` (equivalently
`<T as UpCastAs<S>>::from(v)`) for a pair with a widening path. -/
def cast (s t : Kind) (v : ℚ) : ℚ := castSteps 6 s t v

/-- Values representable in a kind, as rationals: integer kinds carry
exactly the integers of their range; float kinds carry the finite
binary32/binary64 values (significand below the precision, exponent in the
finite range). -/
def Representable : Kind → ℚ → Prop
| .u8, v => ∃ n : Int, v = (n : ℚ) ∧ 0 ≤ n ∧ n < 256
| .u16, v => ∃ n : Int, v = (n : ℚ) ∧ 0 ≤ n ∧ n < 65536
| .u32, v => ∃ n : Int, v = (n : ℚ) ∧ 0 ≤ n ∧ n < 4294967296
| .u64, v => ∃ n : Int, v = (n : ℚ) ∧ 0 ≤ n ∧ n < 18446744073709551616
| .i8, v => ∃ n : Int, v = (n : ℚ) ∧ -128 ≤ n ∧ n < 128
| .i16, v => ∃ n : Int, v = (n : ℚ) ∧ -32768 ≤ n ∧ n < 32768
| .i32, v => ∃ n : Int, v = (n : ℚ) ∧ -2147483648 ≤ n ∧ n < 2147483648
| .i64, v => ∃ n : Int, v = (n : ℚ) ∧ -9223372036854775808 ≤ n ∧ n < 9223372036854775808
| .f32, v => ∃ m e : Int, v = (m : ℚ) * (2 : ℚ) ^ e ∧ m.natAbs < 16777216 ∧ -149 ≤ e ∧ e ≤ 104
| .f64, v => ∃ m e : Int, v = (m : ℚ) * (2 : ℚ) ^ e ∧ m.natAbs < 9007199254740992 ∧ -1074 ≤ e ∧ e ≤ 971

/-- Class tag: the two float kinds. -/
def isFloatKind : Kind → Bool
| .f32 => true
| .f64 => true
| _ => false

/-- Class tag: the eight integer kinds. -/
def isIntKind : Kind → Bool
| .f32 => false
| .f64 => false
| _ => true

/-- Class tag: the four signed integer kinds. -/
def isSignedIntKind : Kind → Bool
| .i8 => true
| .i16 => true
| .i32 => true
| .i64 => true
| _ => false

/-- Class tag: the four unsigned integer kinds. -/
def isUnsignedIntKind : Kind → Bool
| .u8 => true
| .u16 => true
| .u32 => true
| .u64 => true
| _ => false

/-- 64-bit form of an integer kind's own chain (value on floats unused). -/
def own64 : Kind → Kind
| .u8 => .u64
| .u16 => .u64
| .u32 => .u64
| .u64 => .u64
| .i8 => .i64
| .i16 => .i64
| .i32 => .i64
| .i64 => .i64
| .f32 => .f64
| .f64 => .f64

/-- Explicit widening chain from `s` to `t`: the list records the kinds
visited after `s`, each step a direct widening fact. -/
inductive Path : Kind → Kind → List Kind → Prop
| nil (k : Kind) : Path k k []
| cons {s m t : Kind} {l : List Kind} : widen s = some m → Path m t l → Path s t (m :: l)

/-- Height of a kind in the widening order; every direct fact strictly
decreases it, witnessing acyclicity. -/
def rank : Kind → Nat
| .u8 => 5
| .u16 => 4
| .u32 => 3
| .u64 => 2
| .i8 => 5
| .i16 => 4
| .i32 => 3
| .i64 => 2
| .f32 => 1
| .f64 => 0

theorem widen_rank : ∀ s m : Kind, widen s = some m → rank m < rank s := by decide

theorem path_rank {s t : Kind} {l : List Kind} (h : Path s t l) : rank t ≤ rank s := by
  induction h with
  | nil _ => exact le_refl _
  | cons hw _ ih => exact ih.trans (le_of_lt (widen_rank _ _ hw))

theorem path_unique {s t : Kind} {l1 l2 : List Kind}
    (h1 : Path s t l1) (h2 : Path s t l2) : l1 = l2 := by
  induction h1 generalizing l2 with
  | nil k =>
    cases h2 with
    | nil => rfl
    | cons hw hp =>
      exact absurd (lt_of_le_of_lt (path_rank hp) (widen_rank _ _ hw)) (lt_irrefl _)
  | @cons s1 m1 t1 l1 hw hp ih =>
    cases h2 with
    | nil =>
      exact absurd (lt_of_le_of_lt (path_rank hp) (widen_rank _ _ hw)) (lt_irrefl _)
    | cons hw2 hp2 =>
      have hm := Option.some.inj (hw.symm.trans hw2)
      subst hm
      rw [ih hp2]

theorem path_hits_own64 {s t : Kind} {l : List Kind} (hp : Path s t l) :
    isIntKind s = true → isFloatKind t = true → own64 s ∈ s :: l := by
  induction hp with
  | nil k =>
    intro hk ht
    cases k <;> simp_all [isIntKind, isFloatKind]
  | @cons s1 m1 t1 l1 hw _ ih =>
    intro hk ht
    cases s1 <;>
      first
        | exact absurd hk (by decide)
        | exact List.mem_cons_self _ _
        | (simp only [widen, Option.some.injEq] at hw
           subst hw
           exact List.mem_cons_of_mem _ (ih rfl ht))

/-- C1: along every widening path the conversion is numerically exact,
except that any path crossing from the integer kinds into the float kinds
does so through the one 64-bit-integer-to-`f32` fact, whose value is the
standard (nearest, ties to even) binary32 rounding of the input. -/
theorem claim1_widening_lossless (s t : Kind) (v : ℚ) (hpath : UpCastAs t s)
    (hrep : Representable s v) :
    ((isIntKind s && isFloatKind t) = false → cast s t v = v) ∧
    ((isIntKind s && isFloatKind t) = true → cast s t v = ratToF32 v) := by
  cases s <;> cases t <;>
    first
      | exact absurd hpath (by decide)
      | exact ⟨fun _ => rfl, fun h => absurd h (by decide)⟩
      | exact ⟨fun h => absurd h (by decide), fun _ => rfl⟩

theorem claim1_witness :
    UpCastAs Kind.u64 Kind.u8 ∧ Representable Kind.u8 (200 : ℚ) ∧
    cast Kind.u8 Kind.u64 (200 : ℚ) = 200 := by
  refine ⟨by decide, ⟨200, by norm_num⟩, ?_⟩
  exact (claim1_widening_lossless Kind.u8 Kind.u64 200 (by decide) ⟨200, by norm_num⟩).1 rfl

/-- C2: the declared direct facts are exactly the ten reflexive facts (one
per kind) and the nine listed non-reflexive facts, and no others. -/
theorem claim2_direct_facts :
    (∀ k : Kind, UpCastAs k k) ∧
    (∀ s t : Kind, widen s = some t ↔
      (s, t) ∈ ([(Kind.i8, Kind.i16), (Kind.i16, Kind.i32), (Kind.i32, Kind.i64),
        (Kind.u8, Kind.u16), (Kind.u16, Kind.u32), (Kind.u32, Kind.u64),
        (Kind.i64, Kind.f32), (Kind.u64, Kind.f32),
        (Kind.f32, Kind.f64)] : List (Kind × Kind))) :=
  ⟨fun k => UpCastAs.self k, by decide⟩

set_option maxHeartbeats 4000000 in
/-- C3: conversion along a derivable chain S to M to T equals the staged
composition through M, for every input. -/
theorem claim3_composition (s m t : Kind) (v : ℚ) (h1 : UpCastAs m s)
    (h2 : UpCastAs t m) (hrep : Representable s v) :
    cast s t v = cast m t (cast s m v) := by
  cases s <;> cases m <;> cases t <;>
    first
      | rfl
      | exact absurd h1 (by decide)
      | exact absurd h2 (by decide)

theorem claim3_witness :
    UpCastAs Kind.u32 Kind.u8 ∧ UpCastAs Kind.u64 Kind.u32 ∧
    Representable Kind.u8 (200 : ℚ) ∧
    cast Kind.u8 Kind.u64 (200 : ℚ) = 200 ∧
    cast Kind.u8 Kind.u64 (200 : ℚ) = cast Kind.u32 Kind.u64 (cast Kind.u8 Kind.u32 (200 : ℚ)) :=
  ⟨by decide, by decide, ⟨200, by norm_num⟩, rfl,
    claim3_composition Kind.u8 Kind.u32 Kind.u64 200 (by decide) (by decide) ⟨200, by norm_num⟩⟩

/-- C4: converting any kind to itself is the identity on every
representable value. -/
theorem claim4_identity (k : Kind) (v : ℚ) (hrep : Representable k v) :
    cast k k v = v := by
  cases k <;> rfl

theorem claim4_witness : Representable Kind.f32 (7 : ℚ) ∧ cast Kind.f32 Kind.f32 (7 : ℚ) = 7 :=
  ⟨⟨7, 0, by norm_num⟩, claim4_identity Kind.f32 7 ⟨7, 0, by norm_num⟩⟩

/-- C5: on every declared direct fact the resolved conversion coincides
with the single hardware cast of that fact. -/
theorem claim5_direct_soundness (s t : Kind) (v : ℚ) (hw : widen s = some t)
    (hrep : Representable s v) : cast s t v = stepCast s t v := by
  cases s <;> cases t <;> first | rfl | simp [widen] at hw

theorem claim5_witness :
    (widen Kind.u8 = some Kind.u16 ∧ Representable Kind.u8 (255 : ℚ) ∧
      cast Kind.u8 Kind.u16 (255 : ℚ) = 255) ∧
    (widen Kind.i32 = some Kind.i64 ∧ Representable Kind.i32 (-1 : ℚ) ∧
      cast Kind.i32 Kind.i64 (-1 : ℚ) = -1) ∧
    (widen Kind.u64 = some Kind.f32 ∧
      Representable Kind.u64 ((18446744073709551615 : Int) : ℚ) ∧
      cast Kind.u64 Kind.f32 ((18446744073709551615 : Int) : ℚ) =
        ((18446744073709551616 : Int) : ℚ)) := by
  refine ⟨⟨rfl, ⟨255, by norm_num⟩, ?_⟩, ⟨rfl, ⟨-1, by norm_num⟩, ?_⟩,
    ⟨rfl, ⟨18446744073709551615, by norm_num⟩, ?_⟩⟩
  · exact (claim5_direct_soundness Kind.u8 Kind.u16 255 rfl ⟨255, by norm_num⟩).trans rfl
  · exact (claim5_direct_soundness Kind.i32 Kind.i64 (-1) rfl ⟨-1, by norm_num⟩).trans rfl
  · exact (claim5_direct_soundness Kind.u64 Kind.f32 _ rfl
      ⟨18446744073709551615, by norm_num⟩).trans (by decide)

/-- C6: no widening path exists for (u64, u32), (i32, u32) or (f64, f32):
the trait constraint `UpCastAs` is unsatisfiable there, so a `cast` call
for these pairs has no impl to resolve to and is rejected when the program
is compiled. -/
theorem claim6_no_widening_path :
    ¬ UpCastAs Kind.u32 Kind.u64 ∧ ¬ UpCastAs Kind.u32 Kind.i32 ∧
    ¬ UpCastAs Kind.f32 Kind.f64 := by decide

/-- C7: no signed integer kind and unsigned integer kind are related by a
widening path in either direction, directly or transitively. -/
theorem claim7_no_sign_mixing :
    ∀ s u : Kind, isSignedIntKind s = true → isUnsignedIntKind u = true →
      ¬ UpCastAs u s ∧ ¬ UpCastAs s u := by decide

theorem claim7_witness :
    isSignedIntKind Kind.i8 = true ∧ isUnsignedIntKind Kind.u8 = true ∧
    (¬ UpCastAs Kind.u8 Kind.i8 ∧ ¬ UpCastAs Kind.i8 Kind.u8) :=
  ⟨rfl, rfl, claim7_no_sign_mixing Kind.i8 Kind.u8 rfl rfl⟩

/-- C8: the widening path between any concrete pair of kinds is unique (no
diamond), and the two `f32` predecessors both resolve, each through its
own single direct fact. -/
theorem claim8_unique_path :
    (∀ s t : Kind, ∀ l1 l2 : List Kind, Path s t l1 → Path s t l2 → l1 = l2) ∧
    UpCastAs Kind.f32 Kind.i64 ∧ UpCastAs Kind.f32 Kind.u64 ∧
    Path Kind.i64 Kind.f32 [Kind.f32] ∧ Path Kind.u64 Kind.f32 [Kind.f32] :=
  ⟨fun _ _ _ _ h1 h2 => path_unique h1 h2, by decide, by decide,
    Path.cons rfl (Path.nil _), Path.cons rfl (Path.nil _)⟩

theorem claim8_witness :
    Path Kind.u8 Kind.u32 [Kind.u16, Kind.u32] ∧
    ([Kind.u16, Kind.u32] : List Kind) = [Kind.u16, Kind.u32] :=
  ⟨Path.cons rfl (Path.cons rfl (Path.nil _)),
    claim8_unique_path.1 Kind.u8 Kind.u32 _ _
      (Path.cons rfl (Path.cons rfl (Path.nil _)))
      (Path.cons rfl (Path.cons rfl (Path.nil _)))⟩

/-- C9: no integer kind has a direct fact into `f64`; every path from an
integer kind to a float kind passes through that kind's own 64-bit form;
and under those routes every integer kind does reach both float kinds. -/
theorem claim9_float_reachability :
    (∀ k : Kind, isIntKind k = true → widen k ≠ some Kind.f64) ∧
    (∀ k t : Kind, ∀ l : List Kind, isIntKind k = true → isFloatKind t = true →
      Path k t l → own64 k ∈ k :: l) ∧
    (∀ k : Kind, isIntKind k = true → UpCastAs Kind.f32 k ∧ UpCastAs Kind.f64 k) :=
  ⟨by decide, fun _ _ _ hk ht hp => path_hits_own64 hp hk ht, by decide⟩

theorem claim9_witness :
    isIntKind Kind.u8 = true ∧ isFloatKind Kind.f32 = true ∧
    Path Kind.u8 Kind.f32 [Kind.u16, Kind.u32, Kind.u64, Kind.f32] ∧
    own64 Kind.u8 ∈ Kind.u8 :: [Kind.u16, Kind.u32, Kind.u64, Kind.f32] :=
  ⟨rfl, rfl,
    Path.cons rfl (Path.cons rfl (Path.cons rfl (Path.cons rfl (Path.nil _)))),
    claim9_float_reachability.2.1 Kind.u8 Kind.f32 _ rfl rfl
      (Path.cons rfl (Path.cons rfl (Path.cons rfl (Path.cons rfl (Path.nil _)))))⟩

/-- C10: between integer kinds of the same signedness every widening path
converts with the exact mathematical identity on the integer value — the
float-free fragment of the lossless promise. -/
theorem claim10_integer_exact (s t : Kind) (v : ℚ) (hs : isIntKind s = true)
    (ht : isIntKind t = true) (hsign : isSignedIntKind s = isSignedIntKind t)
    (hpath : UpCastAs t s) (hrep : Representable s v) : cast s t v = v := by
  cases s <;> cases t <;>
    first
      | rfl
      | exact absurd hpath (by decide)
      | exact absurd hs (by decide)
      | exact absurd ht (by decide)

theorem claim10_witness :
    isIntKind Kind.i8 = true ∧ isIntKind Kind.i64 = true ∧
    isSignedIntKind Kind.i8 = isSignedIntKind Kind.i64 ∧
    UpCastAs Kind.i64 Kind.i8 ∧ Representable Kind.i8 (-5 : ℚ) ∧
    cast Kind.i8 Kind.i64 (-5 : ℚ) = -5 :=
  ⟨rfl, rfl, rfl, by decide, ⟨-5, by norm_num⟩,
    claim10_integer_exact Kind.i8 Kind.i64 (-5) rfl rfl rfl (by decide) ⟨-5, by norm_num⟩⟩

end Numtraits
